import Mathlib

/-!
Verification development for the auditdog command-explanation tool
(shell script `auditdog.sh`): cache key normalization, bounded
file-resident explanation cache with whole-store TTL, retrying
explanation client with exponential backoff, and the confirmation-gated
session controller.

Strings are modelled as `List Char` where character-level processing
matters; the pure-data parts reuse `String`.
-/

/-- Character class `[:space:]` used by `tr -s '[:space:]' ' '`:
space, tab, newline, vertical tab, form feed, carriage return. -/
def isWsChar (c : Char) : Bool :=
  c = ' ' || c = '\t' || c = '\n' || c = '\x0b' || c = '\x0c' || c = '\r'

/-- Default bash `IFS` characters (space, tab, newline), used by the
unquoted word splitting in `COMMAND_PARTS=($COMMAND)`. -/
def isIfsChar (c : Char) : Bool :=
  c = ' ' || c = '\t' || c = '\n'

/-- Split a character list into maximal runs of non-separator characters,
dropping separators; `acc` holds the (reversed) word being built. -/
def tokensAux (p : Char → Bool) : List Char → List Char → List (List Char)
  | [], acc => if acc.isEmpty then [] else [acc.reverse]
  | c :: cs, acc =>
    if p c then
      if acc.isEmpty then tokensAux p cs []
      else acc.reverse :: tokensAux p cs []
    else tokensAux p cs (c :: acc)

/-- Tokens of `s` with respect to the separator class `p`. -/
def tokens (p : Char → Bool) (s : List Char) : List (List Char) :=
  tokensAux p s []

/-- Join tokens with single spaces. -/
def joinSp : List (List Char) → List Char
  | [] => []
  | [t] => t
  | t :: ts => t ++ ' ' :: joinSp ts

/-- Model of `tr -s '[:space:]' ' ' | xargs` applied by the script when
building `CACHE_KEY`: every maximal whitespace run becomes a single
space and leading/trailing whitespace disappears.  (This models `xargs`
for input free of quote and backslash characters, which `xargs` treats
specially.) -/
def normalizeWS (s : List Char) : List Char :=
  joinSp (tokens isWsChar s)

/-- Model of `COMMAND_PARTS=($COMMAND); CMD=${COMMAND_PARTS[0]}`: the
first IFS-delimited word of the raw command line (empty if none).
(Pathname expansion performed by the unquoted array assignment is not
modelled; it is the identity for words without glob metacharacters.) -/
def firstWordIFS (s : List Char) : List Char :=
  (tokens isIfsChar s).headD []

/-- Model of `ARGS="${COMMAND#$CMD}"`: remove `p` as a prefix of `s`
when it is one, else leave `s` unchanged.  (Faithful to the bash
pattern-prefix removal when the pattern `CMD` contains no glob
metacharacters, which is how it is used below.) -/
def stripCmd (p s : List Char) : List Char :=
  if p.isPrefixOf s then s.drop p.length else s

/-- Model of `ARGS="${ARGS## }"`: the pattern is a single literal space,
so exactly one leading space character is removed when present. -/
def trimOneLeadingSpace : List Char → List Char
  | [] => []
  | c :: rest => if c = ' ' then rest else c :: rest

/-- Model of the cache-key computation (auditdog.sh lines 134-143):
`COMMAND="$@"`, `CMD=${COMMAND_PARTS[0]}`, `ARGS="${COMMAND#$CMD}"`,
`ARGS="${ARGS## }"`, then
`CACHE_KEY=$(echo "${CMD}${ARGS}" | tr -s '[:space:]' ' ' | xargs)`. -/
def cacheKeyChars (command : List Char) : List Char :=
  let cmd := firstWordIFS command
  let args := trimOneLeadingSpace (stripCmd cmd command)
  normalizeWS (cmd ++ args)

/-- String-level wrapper of `cacheKeyChars`. -/
def cacheKey (command : String) : String :=
  String.mk (cacheKeyChars command.data)

/-- Characters `xargs` treats specially (double quote, single quote,
backslash); the `normalizeWS` model of `tr | xargs` is faithful for
input avoiding them. -/
def isShellQuoteChar (c : Char) : Bool :=
  c = Char.ofNat 34 || c = Char.ofNat 39 || c = Char.ofNat 92

theorem ifs_imp_ws {c : Char} (h : isIfsChar c = true) : isWsChar c = true := by
  simp only [isIfsChar, Bool.or_eq_true, decide_eq_true_eq] at h
  simp only [isWsChar, Bool.or_eq_true, decide_eq_true_eq]
  tauto

theorem tokensAux_word (p : Char → Bool) (w rest acc : List Char)
    (hw : ∀ c ∈ w, p c = false) :
    tokensAux p (w ++ rest) acc = tokensAux p rest (w.reverse ++ acc) := by
  induction w generalizing acc with
  | nil => simp
  | cons c w ih =>
    have hc : p c = false := hw c (by simp)
    simp only [List.cons_append, tokensAux, hc, Bool.false_eq_true, if_false,
      List.append_eq]
    rw [ih (c :: acc) (fun d hd => hw d (by simp [hd]))]
    simp

theorem tokensAux_sep_nil (p : Char → Bool) (g rest : List Char)
    (hg : ∀ c ∈ g, p c = true) :
    tokensAux p (g ++ rest) [] = tokensAux p rest [] := by
  induction g with
  | nil => simp
  | cons c g ih =>
    have hc : p c = true := hg c (by simp)
    simp only [List.cons_append, tokensAux, hc, if_true, List.isEmpty_nil,
      List.append_eq]
    exact ih (fun d hd => hg d (by simp [hd]))

theorem tokensAux_sep_cons (p : Char → Bool) (g rest : List Char) (a : Char)
    (acc : List Char) (hg : ∀ c ∈ g, p c = true) (hgne : g ≠ []) :
    tokensAux p (g ++ rest) (a :: acc) =
      (a :: acc).reverse :: tokensAux p rest [] := by
  cases g with
  | nil => exact absurd rfl hgne
  | cons c g' =>
    have hc : p c = true := hg c (by simp)
    simp only [List.cons_append, tokensAux, hc, if_true, List.isEmpty_cons,
      Bool.false_eq_true, if_false, List.append_eq]
    rw [tokensAux_sep_nil p g' rest (fun d hd => hg d (by simp [hd]))]

theorem tokens_word_sep (p : Char → Bool) (w g r : List Char) (hwne : w ≠ [])
    (hw : ∀ c ∈ w, p c = false) (hgne : g ≠ []) (hg : ∀ c ∈ g, p c = true) :
    tokens p (w ++ g ++ r) = w :: tokens p r := by
  unfold tokens
  rw [List.append_assoc, tokensAux_word p w (g ++ r) [] hw]
  obtain ⟨a, acc, hrev⟩ : ∃ a acc, w.reverse = a :: acc := by
    cases hrw : w.reverse with
    | nil => exact absurd (List.reverse_eq_nil_iff.mp hrw) hwne
    | cons a acc => exact ⟨a, acc, rfl⟩
  rw [List.append_nil, hrev, tokensAux_sep_cons p g r a acc hg hgne, ← hrev]
  simp

theorem tokens_word_only (p : Char → Bool) (w : List Char) (hwne : w ≠ [])
    (hw : ∀ c ∈ w, p c = false) : tokens p w = [w] := by
  have h := tokensAux_word p w [] [] hw
  simp only [List.append_nil] at h
  unfold tokens
  rw [h]
  have hne : w.reverse.isEmpty = false := by
    simp [List.isEmpty_iff, hwne]
  simp [tokensAux, hne]

theorem cacheKeyChars_formula (w g r : List Char) (hwne : w ≠ [])
    (hw : ∀ c ∈ w, isWsChar c = false) (hgne : g ≠ [])
    (hg : ∀ c ∈ g, isIfsChar c = true) :
    cacheKeyChars (w ++ g ++ r) =
      if g = [' '] then normalizeWS (w ++ r)
      else joinSp (w :: tokens isWsChar r) := by
  have hwIfs : ∀ c ∈ w, isIfsChar c = false := by
    intro c hc
    cases h : isIfsChar c with
    | false => rfl
    | true => exact absurd (ifs_imp_ws h) (by simp [hw c hc])
  have hgWs : ∀ c ∈ g, isWsChar c = true := fun c hc => ifs_imp_ws (hg c hc)
  have hcmd : firstWordIFS (w ++ g ++ r) = w := by
    unfold firstWordIFS
    rw [tokens_word_sep isIfsChar w g r hwne hwIfs hgne hg]
    rfl
  have hpre : w.isPrefixOf (w ++ g ++ r) = true := by
    rw [List.append_assoc]
    exact List.isPrefixOf_iff_prefix.mpr (List.prefix_append _ _)
  have hstrip : stripCmd w (w ++ g ++ r) = g ++ r := by
    simp only [stripCmd, hpre, if_true]
    rw [List.append_assoc, List.drop_left]
  simp only [cacheKeyChars, hcmd, hstrip]
  cases g with
  | nil => exact absurd rfl hgne
  | cons c g' =>
    by_cases hc : c = ' '
    · subst hc
      by_cases hg' : g' = []
      · subst hg'
        simp [trimOneLeadingSpace]
      · have hcond : (' ' :: g') ≠ [' '] := by simp [hg']
        rw [if_neg hcond]
        have htrim : trimOneLeadingSpace (' ' :: (g' ++ r)) = g' ++ r := by
          simp [trimOneLeadingSpace]
        simp only [List.cons_append, htrim]
        unfold normalizeWS
        rw [← List.append_assoc,
            tokens_word_sep isWsChar w g' r hwne hw hg'
              (fun d hd => hgWs d (by simp [hd]))]
    · have hcond : (c :: g') ≠ [' '] := by
        intro h
        exact hc (List.head_eq_of_cons_eq h)
      rw [if_neg hcond]
      have htrim : trimOneLeadingSpace (c :: (g' ++ r)) = c :: (g' ++ r) := by
        simp [trimOneLeadingSpace, hc]
      simp only [List.cons_append, htrim]
      unfold normalizeWS
      rw [show c :: (g' ++ r) = (c :: g') ++ r from rfl, ← List.append_assoc,
          tokens_word_sep isWsChar w (c :: g') r hwne hw (by simp) hgWs]

/-- Claim C1: the claim fails on the code.  The key pipeline strips the
command word from the raw command line, trims exactly one leading space
from the remainder, and concatenates `${CMD}${ARGS}` with no separator,
so the actual key of `rm -rf /tmp/x` is `rm-rf /tmp/x` (command fused
with its first argument), a single-versus-double space after the command
word yields different keys, and a leading space duplicates the command
word in the key. -/
theorem C1_counterexample :
    cacheKey "rm -rf /tmp/x" = "rm-rf /tmp/x" ∧
    cacheKey "rm  -rf /tmp/x" = "rm -rf /tmp/x" ∧
    cacheKey "rm -rf /tmp/x" ≠ cacheKey "rm  -rf /tmp/x" ∧
    cacheKey "rm -rf /tmp/x" ≠ "rm -rf /tmp/x" ∧
    cacheKey " rm -rf /tmp/x" = "rmrm -rf /tmp/x" := by decide

/-- Claim C1 (amended): the cache key is invariant under whitespace
changes only away from the first separator: for command lines built
from the same command word `w`, first separator runs `g₁`, `g₂` that
are not a single space, and argument tails with the same whitespace
tokenization, the keys agree.  (A single-space first separator fuses
the command word with the first argument, and leading whitespace
duplicates the command word, so those layouts map to different keys;
quote and backslash characters are excluded because `xargs` treats them
specially.) -/
theorem C1_amended (w g₁ g₂ r₁ r₂ : List Char)
    (hwne : w ≠ []) (hw : ∀ c ∈ w, isWsChar c = false)
    (hg₁ne : g₁ ≠ []) (hg₁ : ∀ c ∈ g₁, isIfsChar c = true) (hg₁s : g₁ ≠ [' '])
    (hg₂ne : g₂ ≠ []) (hg₂ : ∀ c ∈ g₂, isIfsChar c = true) (hg₂s : g₂ ≠ [' '])
    (_hq : ∀ c ∈ w ++ g₁ ++ r₁ ++ g₂ ++ r₂, isShellQuoteChar c = false)
    (hr : tokens isWsChar r₁ = tokens isWsChar r₂) :
    cacheKeyChars (w ++ g₁ ++ r₁) = cacheKeyChars (w ++ g₂ ++ r₂) := by
  rw [cacheKeyChars_formula w g₁ r₁ hwne hw hg₁ne hg₁,
      cacheKeyChars_formula w g₂ r₂ hwne hw hg₂ne hg₂,
      if_neg hg₁s, if_neg hg₂s, hr]

/-- Witness for `C1_amended`: `rm<2 spaces>-rf<2 spaces>/tmp/x` and
`rm<tab>-rf /tmp/x<trailing space>` get the same cache key. -/
theorem C1_amended_witness :
    cacheKeyChars ("rm".data ++ [' ', ' '] ++ "-rf  /tmp/x".data) =
    cacheKeyChars ("rm".data ++ ['\t'] ++ "-rf /tmp/x ".data) := by
  apply C1_amended <;> decide

/-- Validated remote explanation: the fields the script requires of a
response (`command`, `summary`, `risk_level`, `sections` of
title/content pairs). -/
structure ExplanationRecord where
  command : String
  summary : String
  risk_level : String
  sections : List (String × String)
deriving DecidableEq

/-- Codepoint-lexicographic comparison of character lists; this is the
order `jq` uses in `sort_by(.key)` on string keys. -/
def charListLe : List Char → List Char → Bool
  | [], _ => true
  | _ :: _, [] => false
  | a :: as, b :: bs =>
    if a.toNat < b.toNat then true
    else if b.toNat < a.toNat then false
    else charListLe as bs

/-- Strict codepoint-lexicographic comparison of character lists. -/
def charListLt : List Char → List Char → Bool
  | [], [] => false
  | [], _ :: _ => true
  | _ :: _, [] => false
  | a :: as, b :: bs =>
    if a.toNat < b.toNat then true
    else if b.toNat < a.toNat then false
    else charListLt as bs

def keyLe (a b : String) : Bool := charListLe a.data b.data

def keyLt (a b : String) : Bool := charListLt a.data b.data

theorem charListLe_refl (a : List Char) : charListLe a a = true := by
  induction a with
  | nil => rfl
  | cons c a ih => simp [charListLe, ih]

theorem charListLe_total (a b : List Char) :
    charListLe a b = true ∨ charListLe b a = true := by
  induction a generalizing b with
  | nil => left; rfl
  | cons x as ih =>
    cases b with
    | nil => right; rfl
    | cons y bs =>
      rcases Nat.lt_trichotomy x.toNat y.toNat with h | h | h
      · left; simp [charListLe, h]
      · rcases ih bs with h2 | h2
        · left; simp [charListLe, h, h2]
        · right; simp [charListLe, h, h2]
      · right; simp [charListLe, h]

theorem charListLe_trans : ∀ (a b c : List Char), charListLe a b = true →
    charListLe b c = true → charListLe a c = true
  | [], _, _, _, _ => rfl
  | _ :: _, [], _, h₁, _ => by simp [charListLe] at h₁
  | _ :: _, _ :: _, [], _, h₂ => by simp [charListLe] at h₂
  | x :: as, y :: bs, z :: cs, h₁, h₂ => by
    simp only [charListLe] at h₁ h₂ ⊢
    by_cases hxy : x.toNat < y.toNat
    · by_cases hyz : y.toNat < z.toNat
      · simp [Nat.lt_trans hxy hyz]
      · by_cases hzy : z.toNat < y.toNat
        · simp [hyz, hzy] at h₂
        · have heq : y.toNat = z.toNat :=
            Nat.le_antisymm (Nat.le_of_not_lt hzy) (Nat.le_of_not_lt hyz)
          simp [heq ▸ hxy]
    · by_cases hyx : y.toNat < x.toNat
      · simp [hxy, hyx] at h₁
      · have hxy' : x.toNat = y.toNat :=
          Nat.le_antisymm (Nat.le_of_not_lt hyx) (Nat.le_of_not_lt hxy)
        simp only [hxy, hyx, if_false] at h₁
        by_cases hyz : y.toNat < z.toNat
        · simp [hxy' ▸ hyz]
        · by_cases hzy : z.toNat < y.toNat
          · simp [hyz, hzy] at h₂
          · simp only [hyz, hzy, if_false] at h₂
            have hxz : ¬ x.toNat < z.toNat := by rw [hxy']; exact hyz
            have hzx : ¬ z.toNat < x.toNat := by
              intro h; exact hzy (by rw [← hxy']; exact h)
            simp only [hxz, hzx, if_false]
            exact charListLe_trans as bs cs h₁ h₂

theorem charListLt_not_le : ∀ {a b : List Char}, charListLt a b = true →
    charListLe b a = false
  | [], [], h => by simp [charListLt] at h
  | [], _ :: _, _ => rfl
  | _ :: _, [], h => by simp [charListLt] at h
  | x :: as, y :: bs, h => by
    simp only [charListLt] at h
    simp only [charListLe]
    by_cases hxy : x.toNat < y.toNat
    · simp [hxy, Nat.lt_asymm hxy]
    · by_cases hyx : y.toNat < x.toNat
      · simp [hxy, hyx] at h
      · simp only [hxy, hyx, if_false] at h
        simp [hxy, hyx, charListLt_not_le h]

/-- Entry order used by the eviction sort: ascending key. -/
def entryLe (a b : String × ExplanationRecord) : Prop := keyLe a.1 b.1 = true

instance : DecidableRel entryLe :=
  fun a b => inferInstanceAs (Decidable (keyLe a.1 b.1 = true))

instance : IsTotal (String × ExplanationRecord) entryLe :=
  ⟨fun a b => charListLe_total a.1.data b.1.data⟩

instance : IsTrans (String × ExplanationRecord) entryLe :=
  ⟨fun _ _ _ h₁ h₂ => charListLe_trans _ _ _ h₁ h₂⟩

/-- The persisted cache document: a jq object mapping cache keys to
stored explanation records, in key insertion order. -/
abbrev CacheStore := List (String × ExplanationRecord)

def MAX_CACHE_ENTRIES : Nat := 100

def CACHE_EXPIRY_DAYS : Nat := 7

/-- `CACHE_EXPIRY_DAYS * 86400`, the store TTL in seconds. -/
def CACHE_EXPIRY_SECONDS : Nat := CACHE_EXPIRY_DAYS * 86400

/-- jq assignment `.[$key] = $content[0]` on an object: replace the
value in place when the key is present, else append the binding. -/
def jqSet : CacheStore → String → ExplanationRecord → CacheStore
  | [], k, v => [(k, v)]
  | (k', v') :: rest, k, v =>
    if k' = k then (k, v) :: rest else (k', v') :: jqSet rest k v

/-- jq lookup `.["key"]` as used by `check_cache`/`get_from_cache`:
the value bound to `k`, if any. -/
def cacheLookup : CacheStore → String → Option ExplanationRecord
  | [], _ => none
  | (k', v') :: rest, k => if k' = k then some v' else cacheLookup rest k

/-- jq `to_entries | sort_by(.key)`: the entries in ascending key
order. -/
def sortEntries (c : CacheStore) : CacheStore := List.insertionSort entryLe c

/-- `add_to_cache` (auditdog.sh lines 182-207): bind the key in the
document, then, when the entry count exceeds `MAX_CACHE_ENTRIES`, keep
`to_entries | sort_by(.key) | .[1:] | from_entries`, dropping the first
(smallest-key) entry of the sorted entry list. -/
def add_to_cache (c : CacheStore) (k : String) (v : ExplanationRecord) :
    CacheStore :=
  let c' := jqSet c k v
  if MAX_CACHE_ENTRIES < c'.length then (sortEntries c').drop 1 else c'

/-- `manage_cache_expiration` (auditdog.sh lines 75-113): a missing
store file is created empty; an unreadable modification time resets the
store; a store strictly older than the TTL is reset; otherwise the
store is kept.  `ageSeconds` is now minus the last modification time. -/
def manage_cache_expiration (store : Option CacheStore)
    (ageSeconds : Option Nat) : CacheStore :=
  match store with
  | none => []
  | some c =>
    match ageSeconds with
    | none => []
    | some age => if CACHE_EXPIRY_SECONDS < age then [] else c

theorem jqSet_length (c : CacheStore) (k : String) (v : ExplanationRecord) :
    (jqSet c k v).length =
      if k ∈ c.map Prod.fst then c.length else c.length + 1 := by
  induction c with
  | nil => simp [jqSet]
  | cons e rest ih =>
    obtain ⟨k', v'⟩ := e
    by_cases h : k' = k
    · subst h; simp [jqSet]
    · have hne : ¬ k = k' := fun hh => h hh.symm
      simp only [jqSet, if_neg h, List.length_cons, List.map_cons,
        List.mem_cons, ih]
      by_cases hm : k ∈ rest.map Prod.fst
      · simp [hm, hne]
      · simp [hm, hne]

theorem jqSet_length_le (c : CacheStore) (k : String) (v : ExplanationRecord) :
    (jqSet c k v).length ≤ c.length + 1 := by
  rw [jqSet_length]
  split <;> omega

theorem jqSet_mem_self (c : CacheStore) (k : String) (v : ExplanationRecord) :
    (k, v) ∈ jqSet c k v := by
  induction c with
  | nil => simp [jqSet]
  | cons e rest ih =>
    obtain ⟨k', v'⟩ := e
    by_cases h : k' = k <;> simp [jqSet, h, ih]

theorem jqSet_mem_other {c : CacheStore} {e : String × ExplanationRecord}
    {k : String} {v : ExplanationRecord} (he : e ∈ c) (hne : e.1 ≠ k) :
    e ∈ jqSet c k v := by
  induction c with
  | nil => simp at he
  | cons f rest ih =>
    obtain ⟨k', v'⟩ := f
    rcases List.mem_cons.mp he with h | h
    · by_cases hk : k' = k
      · exfalso; apply hne; rw [h]; exact hk
      · rw [h]; simp [jqSet, hk]
    · by_cases hk : k' = k
      · simp [jqSet, hk, h]
      · simp only [jqSet, if_neg hk, List.mem_cons]
        exact Or.inr (ih h)

theorem jqSet_keys (c : CacheStore) (k : String) (v : ExplanationRecord) :
    (jqSet c k v).map Prod.fst =
      if k ∈ c.map Prod.fst then c.map Prod.fst
      else c.map Prod.fst ++ [k] := by
  induction c with
  | nil => simp [jqSet]
  | cons e rest ih =>
    obtain ⟨k', v'⟩ := e
    by_cases h : k' = k
    · subst h; simp [jqSet]
    · have hne : ¬ k = k' := fun hh => h hh.symm
      by_cases hm : k ∈ rest.map Prod.fst <;>
        simp [jqSet, h, hne, hm, ih]

theorem jqSet_keys_nodup {c : CacheStore} (hnd : (c.map Prod.fst).Nodup)
    (k : String) (v : ExplanationRecord) :
    ((jqSet c k v).map Prod.fst).Nodup := by
  rw [jqSet_keys]
  by_cases hm : k ∈ c.map Prod.fst
  · simpa [hm]
  · simp only [hm, if_false, List.nodup_append]
    refine ⟨hnd, List.nodup_singleton k, ?_⟩
    intro a ha hb
    rw [List.mem_singleton] at hb
    exact hm (hb ▸ ha)

theorem cacheLookup_jqSet (c : CacheStore) (k : String) (v : ExplanationRecord) :
    cacheLookup (jqSet c k v) k = some v := by
  induction c with
  | nil => simp [jqSet, cacheLookup]
  | cons e rest ih =>
    obtain ⟨k', v'⟩ := e
    by_cases h : k' = k <;> simp [jqSet, cacheLookup, h, ih]

theorem cacheLookup_of_mem_nodup : ∀ {l : CacheStore} {k : String}
    {v : ExplanationRecord}, (k, v) ∈ l → (l.map Prod.fst).Nodup →
    cacheLookup l k = some v := by
  intro l
  induction l with
  | nil => intro k v h _; simp at h
  | cons e rest ih =>
    intro k v hmem hnd
    obtain ⟨k', v'⟩ := e
    simp only [List.map_cons, List.nodup_cons] at hnd
    rcases List.mem_cons.mp hmem with h | h
    · injection h with hk hv
      subst hk; subst hv
      simp [cacheLookup]
    · by_cases hk : k' = k
      · exfalso
        have hkm : k ∈ rest.map Prod.fst := List.mem_map.mpr ⟨(k, v), h, rfl⟩
        rw [hk] at hnd
        exact hnd.1 hkm
      · simp only [cacheLookup, if_neg hk]
        exact ih h hnd.2

theorem sortEntries_cons_min {c : CacheStore} {e : String × ExplanationRecord}
    {t : CacheStore} (hs : sortEntries c = e :: t) :
    e ∈ c ∧ (∀ f ∈ c, entryLe e f) ∧ (e :: t).Perm c ∧
      t.length + 1 = c.length := by
  have hperm : (sortEntries c).Perm c := List.perm_insertionSort entryLe c
  have hsort : List.Sorted entryLe (sortEntries c) :=
    List.sorted_insertionSort entryLe c
  rw [hs] at hperm hsort
  obtain ⟨hmin_t, _⟩ := List.sorted_cons.mp hsort
  refine ⟨hperm.subset (by simp), ?_, hperm, by simpa using hperm.length_eq⟩
  intro f hf
  rcases List.mem_cons.mp (hperm.symm.subset hf) with h | h
  · rw [h]; exact charListLe_refl e.1.data
  · exact hmin_t f h

/-- Sample record: the high-risk explanation of the `rm -rf /tmp/x`
scenario. -/
def recHigh : ExplanationRecord :=
  { command := "rm -rf /tmp/x"
    summary := "Recursively deletes the target directory"
    risk_level := "high"
    sections := [("Effect", "Removes files without prompting")] }

/-- Sample record: a low-risk explanation. -/
def recLow : ExplanationRecord :=
  { command := "ls"
    summary := "Lists files"
    risk_level := "low"
    sections := [("Effect", "Lists directory contents")] }

/-- Distinct three-letter keys `baa`, `bab`, ..., all lexicographically
greater than `"a"`. -/
def natKey (i : Nat) : String :=
  String.mk ['b', Char.ofNat (97 + i / 10), Char.ofNat (97 + i % 10)]

/-- A store already holding `MAX_CACHE_ENTRIES` entries, every key
greater than `"a"`. -/
def fullCache : CacheStore :=
  (List.range MAX_CACHE_ENTRIES).map (fun i => (natKey i, recLow))

/-- Claim C4: starting from a store within the bound (every store the
tool builds is), the post-insertion entry count never exceeds
`MAX_CACHE_ENTRIES`; an insertion that stays within the bound removes
nothing, and an insertion that would exceed it removes exactly one
entry, one whose key is least (in the codepoint-lexicographic order
`entryLe`) among all keys of the updated document — which is the
just-inserted entry only when that key is itself least. -/
theorem C4_insert_bound_evicts_min (c : CacheStore) (k : String)
    (v : ExplanationRecord) (hlen : c.length ≤ MAX_CACHE_ENTRIES) :
    (add_to_cache c k v).length ≤ MAX_CACHE_ENTRIES ∧
    ((jqSet c k v).length ≤ MAX_CACHE_ENTRIES →
      add_to_cache c k v = jqSet c k v) ∧
    (MAX_CACHE_ENTRIES < (jqSet c k v).length →
      ∃ e ∈ jqSet c k v, (∀ f ∈ jqSet c k v, entryLe e f) ∧
        (add_to_cache c k v).length + 1 = (jqSet c k v).length ∧
        (e :: add_to_cache c k v).Perm (jqSet c k v)) := by
  by_cases hof : MAX_CACHE_ENTRIES < (jqSet c k v).length
  · obtain ⟨e, t, hs⟩ : ∃ e t, sortEntries (jqSet c k v) = e :: t := by
      cases hse : sortEntries (jqSet c k v) with
      | nil =>
        exfalso
        have hl := (List.perm_insertionSort entryLe (jqSet c k v)).length_eq
        rw [show List.insertionSort entryLe (jqSet c k v) =
              sortEntries (jqSet c k v) from rfl, hse] at hl
        simp at hl
        omega
      | cons e t => exact ⟨e, t, rfl⟩
    obtain ⟨hmem, hmin, hperm, hlen1⟩ := sortEntries_cons_min hs
    have hadd : add_to_cache c k v = t := by
      simp only [add_to_cache, if_pos hof, hs, List.drop_one, List.tail_cons]
    have hle := jqSet_length_le c k v
    refine ⟨?_, ?_, ?_⟩
    · rw [hadd]; omega
    · intro h; omega
    · intro _
      exact ⟨e, hmem, hmin, by rw [hadd]; omega, by rw [hadd]; exact hperm⟩
  · have hadd : add_to_cache c k v = jqSet c k v := by
      simp only [add_to_cache, if_neg hof]
    refine ⟨?_, fun _ => hadd, fun h => absurd h hof⟩
    rw [hadd]
    omega

/-- Witness for `C4_insert_bound_evicts_min` at a two-entry store. -/
theorem C4_witness :
    ([("baa", recLow), ("bab", recLow)] : CacheStore).length ≤
        MAX_CACHE_ENTRIES ∧
    ((add_to_cache [("baa", recLow), ("bab", recLow)] "a" recHigh).length ≤
        MAX_CACHE_ENTRIES ∧
      ((jqSet [("baa", recLow), ("bab", recLow)] "a" recHigh).length ≤
          MAX_CACHE_ENTRIES →
        add_to_cache [("baa", recLow), ("bab", recLow)] "a" recHigh =
          jqSet [("baa", recLow), ("bab", recLow)] "a" recHigh) ∧
      (MAX_CACHE_ENTRIES <
          (jqSet [("baa", recLow), ("bab", recLow)] "a" recHigh).length →
        ∃ e ∈ jqSet [("baa", recLow), ("bab", recLow)] "a" recHigh,
          (∀ f ∈ jqSet [("baa", recLow), ("bab", recLow)] "a" recHigh,
            entryLe e f) ∧
          (add_to_cache [("baa", recLow), ("bab", recLow)] "a" recHigh).length
              + 1 =
            (jqSet [("baa", recLow), ("bab", recLow)] "a" recHigh).length ∧
          (e :: add_to_cache [("baa", recLow), ("bab", recLow)] "a"
              recHigh).Perm
            (jqSet [("baa", recLow), ("bab", recLow)] "a" recHigh))) :=
  ⟨by decide,
    C4_insert_bound_evicts_min [("baa", recLow), ("bab", recLow)] "a" recHigh
      (by decide)⟩

/-- Claim C5: false — inserting into a full store under a key smaller
than every present key evicts the entry just inserted, so the
immediately following lookup (age zero, well within the TTL) misses. -/
theorem C5_counterexample :
    cacheLookup
      (manage_cache_expiration (some (add_to_cache fullCache "a" recHigh))
        (some 0)) "a" = none := by decide

/-- Claim C5 (amended): within the TTL window, `insert` followed by
`lookup` with the same key returns the inserted record provided the
insertion does not evict the new entry itself: for a store within the
bound with distinct keys, either the updated document stays within
`MAX_CACHE_ENTRIES`, or some existing key is strictly smaller than the
inserted key.  (When a full store receives a fresh key smaller than
every present key, the new entry is evicted at once and the lookup
misses, as `C5_counterexample` shows.) -/
theorem C5_roundtrip_amended (c : CacheStore) (k : String)
    (v : ExplanationRecord) (age : Nat) (hnd : (c.map Prod.fst).Nodup)
    (hlen : c.length ≤ MAX_CACHE_ENTRIES) (hage : age ≤ CACHE_EXPIRY_SECONDS)
    (hsurv : (jqSet c k v).length ≤ MAX_CACHE_ENTRIES ∨
      ∃ e ∈ c, keyLt e.1 k = true) :
    cacheLookup
      (manage_cache_expiration (some (add_to_cache c k v)) (some age)) k =
      some v := by
  have hfresh :
      manage_cache_expiration (some (add_to_cache c k v)) (some age) =
        add_to_cache c k v := by
    simp [manage_cache_expiration, Nat.not_lt.mpr hage]
  rw [hfresh]
  by_cases hof : MAX_CACHE_ENTRIES < (jqSet c k v).length
  · obtain ⟨e, hec, helt⟩ : ∃ e ∈ c, keyLt e.1 k = true := by
      rcases hsurv with h | h
      · omega
      · exact h
    have hene : e.1 ≠ k := by
      intro h
      rw [h] at helt
      have hfalse := charListLt_not_le helt
      rw [charListLe_refl] at hfalse
      exact Bool.noConfusion hfalse
    have hmem' : e ∈ jqSet c k v := jqSet_mem_other hec hene
    obtain ⟨h0, t, hs⟩ : ∃ h0 t, sortEntries (jqSet c k v) = h0 :: t := by
      cases hse : sortEntries (jqSet c k v) with
      | nil =>
        exfalso
        have hl := (List.perm_insertionSort entryLe (jqSet c k v)).length_eq
        rw [show List.insertionSort entryLe (jqSet c k v) =
              sortEntries (jqSet c k v) from rfl, hse] at hl
        simp at hl
        omega
      | cons h0 t => exact ⟨h0, t, rfl⟩
    obtain ⟨hh0mem, hmin, hperm, _⟩ := sortEntries_cons_min hs
    have hadd : add_to_cache c k v = t := by
      simp only [add_to_cache, if_pos hof, hs, List.drop_one, List.tail_cons]
    have hh0ne : h0 ≠ (k, v) := by
      intro h
      have hle := hmin e hmem'
      rw [h] at hle
      have hfalse := charListLt_not_le helt
      have hle' : charListLe k.data e.1.data = true := hle
      rw [hle'] at hfalse
      exact Bool.noConfusion hfalse
    have hkv_t : (k, v) ∈ t := by
      have hin : (k, v) ∈ sortEntries (jqSet c k v) :=
        (List.perm_insertionSort entryLe (jqSet c k v)).mem_iff.mpr
          (jqSet_mem_self c k v)
      rw [hs] at hin
      rcases List.mem_cons.mp hin with h | h
      · exact absurd h.symm hh0ne
      · exact h
    have hnd' : ((jqSet c k v).map Prod.fst).Nodup := jqSet_keys_nodup hnd k v
    have hndt : (t.map Prod.fst).Nodup := by
      have hp : ((h0 :: t).map Prod.fst).Perm ((jqSet c k v).map Prod.fst) := by
        rw [← hs]
        exact (List.perm_insertionSort entryLe (jqSet c k v)).map Prod.fst
      have := (hp.nodup_iff).mpr hnd'
      simp only [List.map_cons, List.nodup_cons] at this
      exact this.2
    rw [hadd]
    exact cacheLookup_of_mem_nodup hkv_t hndt
  · have hadd : add_to_cache c k v = jqSet c k v := by
      simp only [add_to_cache, if_neg hof]
    rw [hadd]
    exact cacheLookup_jqSet c k v

/-- Witness for `C5_roundtrip_amended`: a one-entry fresh store. -/
theorem C5_roundtrip_amended_witness :
    (([("b", recLow)] : CacheStore).map Prod.fst).Nodup ∧
    cacheLookup
      (manage_cache_expiration
        (some (add_to_cache [("b", recLow)] "a" recHigh)) (some 0)) "a" =
      some recHigh :=
  ⟨by decide,
    C5_roundtrip_amended [("b", recLow)] "a" recHigh 0 (by decide) (by decide)
      (by decide) (Or.inl (by decide))⟩

/-- File-level write operations `add_to_cache` performs: writing a
document to the scratch file (`jq ... > "$tmp_cache_file"`), renaming
the scratch file onto the store (`mv "$tmp_cache_file" "$CACHE_FILE"`),
and writing a document directly into the store file via shell
redirection (`jq ... > "$CACHE_FILE"`). -/
inductive WriteStep where
  | toScratch (doc : CacheStore)
  | renameScratchToStore
  | directToStore (doc : CacheStore)
deriving DecidableEq

/-- The sequence of file writes of one `add_to_cache` call (auditdog.sh
lines 182-207): the updated document always goes to the scratch file
first; without overflow the scratch file is then renamed onto the
store, while with overflow the trimmed document is written directly
into the store file by redirection. -/
def add_to_cache_writes (c : CacheStore) (k : String) (v : ExplanationRecord) :
    List WriteStep :=
  let c' := jqSet c k v
  if MAX_CACHE_ENTRIES < c'.length then
    [WriteStep.toScratch c', WriteStep.directToStore ((sortEntries c').drop 1)]
  else
    [WriteStep.toScratch c', WriteStep.renameScratchToStore]

/-- A write step leaves the store file intact-or-replaced-in-one-step
exactly when it is not a direct redirection into the store file: a
scratch write never touches the store, and a rename replaces it
atomically, while `> "$CACHE_FILE"` truncates and rewrites it in
place. -/
def atomicStoreStep : WriteStep → Bool
  | WriteStep.directToStore _ => false
  | _ => true

/-- Claim C6: false — the eviction branch of `add_to_cache` writes the
trimmed document directly into the store file by shell redirection
instead of renaming the scratch file, so the write path of an
insertion into a full store contains a non-atomic store write. -/
theorem C6_counterexample :
    (add_to_cache_writes fullCache "a" recHigh).all atomicStoreStep =
      false := by decide

/-- Claim C6 (amended): an insertion whose updated document stays
within `MAX_CACHE_ENTRIES` is written atomically — the document is
built in the scratch file and renamed onto the store in one step; only
the eviction rewrite (and the expiry reset) bypasses the scratch file
and overwrites the store file in place. -/
theorem C6_atomic_without_eviction (c : CacheStore) (k : String)
    (v : ExplanationRecord)
    (hlen : (jqSet c k v).length ≤ MAX_CACHE_ENTRIES) :
    (add_to_cache_writes c k v).all atomicStoreStep = true := by
  simp [add_to_cache_writes, Nat.not_lt.mpr hlen, atomicStoreStep]

/-- Witness for `C6_atomic_without_eviction` at an empty store. -/
theorem C6_atomic_without_eviction_witness :
    (jqSet [] "a" recLow).length ≤ MAX_CACHE_ENTRIES ∧
    (add_to_cache_writes [] "a" recLow).all atomicStoreStep = true :=
  ⟨by decide, C6_atomic_without_eviction [] "a" recLow (by decide)⟩

/-- Claim C7: a store whose age strictly exceeds the TTL
(`CACHE_EXPIRY_DAYS * 86400` seconds since last modification) is reset
to an empty store by `manage_cache_expiration`, which runs before any
lookup, so every subsequent lookup misses — whatever the store held. -/
theorem C7_ttl_reset (c : CacheStore) (age : Nat)
    (hage : CACHE_EXPIRY_SECONDS < age) :
    manage_cache_expiration (some c) (some age) = [] ∧
    ∀ k, cacheLookup (manage_cache_expiration (some c) (some age)) k =
      none := by
  refine ⟨?_, ?_⟩
  · simp [manage_cache_expiration, hage]
  · intro k
    simp [manage_cache_expiration, hage, cacheLookup]

/-- Witness for `C7_ttl_reset`: a one-entry store aged one second past
the seven-day TTL. -/
theorem C7_ttl_reset_witness :
    CACHE_EXPIRY_SECONDS < 604801 ∧
    (manage_cache_expiration (some [("b", recLow)]) (some 604801) = [] ∧
      ∀ k, cacheLookup
        (manage_cache_expiration (some [("b", recLow)]) (some 604801)) k =
        none) :=
  ⟨by decide, C7_ttl_reset [("b", recLow)] 604801 (by decide)⟩

def MAX_RETRIES : Nat := 5

/-- Initial `RETRY_DELAY` in seconds. -/
def RETRY_DELAY : Nat := 1

/-- The retry loop (auditdog.sh lines 236-333) against an attempt
oracle `outcome`, where `outcome n` is the validated record of the
attempt made at `RETRY_COUNT = n` (`none` when the attempt fails any
of the transport or response checks).  The state is the remaining
iteration budget `MAX_RETRIES - RETRY_COUNT`, the current
`RETRY_COUNT`, and the current `RETRY_DELAY`; before every attempt but
the first the loop sleeps for the current delay and then doubles it.
The result is the first successful record (if any) together with the
list of inter-attempt delays slept, in order. -/
def retryAux (outcome : Nat → Option ExplanationRecord) :
    Nat → Nat → Nat → Option ExplanationRecord × List Nat
  | 0, _, _ => (none, [])
  | rem + 1, rc, d =>
    let sleeps : List Nat := if rc = 0 then [] else [d]
    let d' := if rc = 0 then d else 2 * d
    match outcome rc with
    | some r => (some r, sleeps)
    | none =>
      let rest := retryAux outcome rem (rc + 1) d'
      (rest.1, sleeps ++ rest.2)

/-- The explanation client: run the retry loop from a fresh state. -/
def explainRetry (outcome : Nat → Option ExplanationRecord) :
    Option ExplanationRecord × List Nat :=
  retryAux outcome MAX_RETRIES 0 RETRY_DELAY

/-- Observable outcome of one tool invocation. -/
structure SessionResult where
  exitCode : Nat
  executed : Bool
  cacheAfter : CacheStore
  cacheHit : Bool
  delays : List Nat
  result : Option ExplanationRecord
  commandStatus : Option Nat
deriving DecidableEq

/-- The session controller (auditdog.sh lines 209-401) on a store that
has already passed `manage_cache_expiration`: look the normalized key
up in the cache; on a hit render the cached record, on a miss run the
retry client and cache a successful record.  After a successful
explanation the execute prompt `[Y/n]` runs the command unless the
answer is exactly `n` or `N` (`[[ ! "$CONFIRM" =~ ^[nN]$ ]]`), and the
script then exits 0; after exhaustion the run-anyway prompt `[y/N]`
runs the command only on exactly `y` or `Y`, and the script exits 1
either way.  `answer` is the line `read` returns (empty on no
response), `evalStatus` the exit status of the executed command, which
is recorded but never influences the exit code. -/
def session (store : CacheStore) (command : String)
    (outcome : Nat → Option ExplanationRecord) (answer : String)
    (evalStatus : Nat) : SessionResult :=
  let key := cacheKey command
  match cacheLookup store key with
  | some rec =>
    let exec := !(answer == "n" || answer == "N")
    { exitCode := 0, executed := exec, cacheAfter := store, cacheHit := true
      delays := [], result := some rec
      commandStatus := if exec then some evalStatus else none }
  | none =>
    let p := explainRetry outcome
    match p.1 with
    | some rec =>
      let exec := !(answer == "n" || answer == "N")
      { exitCode := 0, executed := exec
        cacheAfter := add_to_cache store key rec, cacheHit := false
        delays := p.2, result := some rec
        commandStatus := if exec then some evalStatus else none }
    | none =>
      let exec := answer == "y" || answer == "Y"
      { exitCode := 1, executed := exec, cacheAfter := store
        cacheHit := false, delays := p.2, result := none
        commandStatus := if exec then some evalStatus else none }

/-- Claim C2: a client failing on attempts 1-4 and succeeding on
attempt 5 returns the successful record, having slept exactly four
inter-attempt delays of 1, 2, 4 and 8 seconds — starting at the
initial delay and doubling after every retry, strictly increasing with
no cap. -/
theorem C2_backoff (outcome : Nat → Option ExplanationRecord)
    (r : ExplanationRecord) (h0 : outcome 0 = none) (h1 : outcome 1 = none)
    (h2 : outcome 2 = none) (h3 : outcome 3 = none)
    (h4 : outcome 4 = some r) :
    explainRetry outcome = (some r, [1, 2, 4, 8]) := by
  simp [explainRetry, retryAux, MAX_RETRIES, RETRY_DELAY, h0, h1, h2, h3, h4]

/-- A concrete oracle that fails the first four attempts and succeeds
on the fifth. -/
def outcomeFifth (n : Nat) : Option ExplanationRecord :=
  if n = 4 then some recLow else none

/-- Witness for `C2_backoff` at `outcomeFifth`. -/
theorem C2_backoff_witness :
    explainRetry outcomeFifth = (some recLow, [1, 2, 4, 8]) :=
  C2_backoff outcomeFifth recLow (by decide) (by decide) (by decide)
    (by decide) (by decide)

theorem retryAux_none (outcome : Nat → Option ExplanationRecord)
    (hfail : ∀ n, outcome n = none) :
    ∀ rem rc d, (retryAux outcome rem rc d).1 = none := by
  intro rem
  induction rem with
  | zero => intro rc d; rfl
  | succ rem ih =>
    intro rc d
    simp [retryAux, hfail rc, ih]

/-- Claim C3: on a cache miss with a client that never succeeds within
`MAX_RETRIES` attempts, the session exits 1, the cache store is
unchanged (no insertion), and the run-anyway prompt defaults to no:
the command runs only on an explicit `y` or `Y` answer, and the exit
status is 1 regardless of that choice. -/
theorem C3_exhaustion (store : CacheStore) (command : String)
    (outcome : Nat → Option ExplanationRecord) (answer : String)
    (evalStatus : Nat)
    (hmiss : cacheLookup store (cacheKey command) = none)
    (hfail : ∀ n, outcome n = none) :
    (session store command outcome answer evalStatus).exitCode = 1 ∧
    (session store command outcome answer evalStatus).cacheAfter = store ∧
    (session store command outcome answer evalStatus).executed =
      (answer == "y" || answer == "Y") ∧
    (session store command outcome answer evalStatus).result = none := by
  have hret : (explainRetry outcome).1 = none :=
    retryAux_none outcome hfail MAX_RETRIES 0 RETRY_DELAY
  simp [session, hmiss, hret]

/-- Witness for `C3_exhaustion`: empty store, always-failing client,
empty answer — the tool exits 1 and does not execute. -/
theorem C3_exhaustion_witness :
    cacheLookup [] (cacheKey "rm -rf /tmp/x") = none ∧
    ((session [] "rm -rf /tmp/x" (fun _ => none) "" 0).exitCode = 1 ∧
      (session [] "rm -rf /tmp/x" (fun _ => none) "" 0).cacheAfter = [] ∧
      (session [] "rm -rf /tmp/x" (fun _ => none) "" 0).executed =
        (("" : String) == "y" || ("" : String) == "Y") ∧
      (session [] "rm -rf /tmp/x" (fun _ => none) "" 0).result = none) :=
  ⟨by decide,
    C3_exhaustion [] "rm -rf /tmp/x" (fun _ => none) "" 0 (by decide)
      (fun _ => rfl)⟩

/-- Claim C9: after a successful explanation (cache hit or client
success), the execute prompt defaults to yes: the command runs unless
the answer is exactly `n` or `N` — in particular an empty answer,
which also models no response, executes — and the tool exits 0 whether
execution happens or is skipped, so skipping never becomes a
failure. -/
theorem C9_confirm_default_yes (store : CacheStore) (command : String)
    (outcome : Nat → Option ExplanationRecord) (answer : String)
    (evalStatus : Nat)
    (hok : cacheLookup store (cacheKey command) ≠ none ∨
      (explainRetry outcome).1 ≠ none) :
    (session store command outcome answer evalStatus).exitCode = 0 ∧
    (session store command outcome answer evalStatus).executed =
      !(answer == "n" || answer == "N") := by
  cases hl : cacheLookup store (cacheKey command) with
  | some rec => simp [session, hl]
  | none =>
    cases hr : (explainRetry outcome).1 with
    | some rec => simp [session, hl, hr]
    | none =>
      rcases hok with h | h
      · exact absurd hl h
      · exact absurd hr h

/-- Witness for `C9_confirm_default_yes`: empty store, client that
succeeds at once, empty answer — the command executes and the tool
exits 0. -/
theorem C9_confirm_default_yes_witness :
    (cacheLookup [] (cacheKey "ls -la") ≠ none ∨
      (explainRetry (fun _ => some recLow)).1 ≠ none) ∧
    ((session [] "ls -la" (fun _ => some recLow) "" 0).exitCode = 0 ∧
      (session [] "ls -la" (fun _ => some recLow) "" 0).executed =
        !((("" : String) == "n") || (("" : String) == "N"))) :=
  ⟨Or.inr (by decide),
    C9_confirm_default_yes [] "ls -la" (fun _ => some recLow) "" 0
      (Or.inr (by decide))⟩

/-- Claim C10: on the success path the exit status of the executed
command is discarded: whenever the explanation succeeded and the user
confirms execution, the command runs — its own status is observed as
`commandStatus` — yet the tool exits 0 for every such status. -/
theorem C10_eval_status_discarded (store : CacheStore) (command : String)
    (outcome : Nat → Option ExplanationRecord) (answer : String)
    (hok : cacheLookup store (cacheKey command) ≠ none ∨
      (explainRetry outcome).1 ≠ none)
    (hyes : (answer == "n" || answer == "N") = false) :
    ∀ evalStatus,
      (session store command outcome answer evalStatus).executed = true ∧
      (session store command outcome answer evalStatus).commandStatus =
        some evalStatus ∧
      (session store command outcome answer evalStatus).exitCode = 0 := by
  intro evalStatus
  cases hl : cacheLookup store (cacheKey command) with
  | some rec => simp [session, hl, hyes]
  | none =>
    cases hr : (explainRetry outcome).1 with
    | some rec => simp [session, hl, hr, hyes]
    | none =>
      rcases hok with h | h
      · exact absurd hl h
      · exact absurd hr h

/-- Witness for `C10_eval_status_discarded`: the executed command fails
with status 7 and the tool still exits 0. -/
theorem C10_eval_status_discarded_witness :
    (cacheLookup [] (cacheKey "ls") ≠ none ∨
      (explainRetry (fun _ => some recLow)).1 ≠ none) ∧
    ((session [] "ls" (fun _ => some recLow) "" 7).executed = true ∧
      (session [] "ls" (fun _ => some recLow) "" 7).commandStatus = some 7 ∧
      (session [] "ls" (fun _ => some recLow) "" 7).exitCode = 0) :=
  ⟨Or.inr (by decide),
    C10_eval_status_discarded [] "ls" (fun _ => some recLow) ""
      (Or.inr (by decide)) (by decide) 7⟩

/-- The double-quote character. -/
def jsonQuote : Char := Char.ofNat 34

/-- The backslash character. -/
def jsonBackslash : Char := Char.ofNat 92

/-- The opening-brace character. -/
def jsonLBrace : Char := Char.ofNat 123

/-- The closing-brace character. -/
def jsonRBrace : Char := Char.ofNat 125

/-- JSON values as `jq` parses them: null, booleans, numbers, strings,
arrays and objects.  (Number syntax is restricted to optionally signed
decimal integers, which covers every payload evaluated here.) -/
inductive Json where
  | null
  | bool (b : Bool)
  | num (n : Int)
  | str (s : String)
  | arr (xs : List Json)
  | obj (fields : List (String × Json))

/-- JSON insignificant whitespace. -/
def jsonWsChar (c : Char) : Bool := c = ' ' || c = '\t' || c = '\n' || c = '\r'

def skipJsonWs : List Char → List Char
  | [] => []
  | c :: cs => if jsonWsChar c then skipJsonWs cs else c :: cs

/-- Common string escapes (the subset sufficient for the payloads
evaluated here). -/
def escChar (e : Char) : Option Char :=
  if e = jsonQuote then some jsonQuote
  else if e = jsonBackslash then some jsonBackslash
  else if e = '/' then some '/'
  else if e = 'n' then some '\n'
  else if e = 't' then some '\t'
  else if e = 'r' then some '\r'
  else none

/-- Parse the body of a quoted string after the opening quote, up to
and including the closing quote. -/
def parseStringChars : Nat → List Char → Option (List Char × List Char)
  | 0, _ => none
  | _ + 1, [] => none
  | fuel + 1, c :: cs =>
    if c = jsonQuote then some ([], cs)
    else if c = jsonBackslash then
      match cs with
      | [] => none
      | e :: cs' =>
        match escChar e with
        | none => none
        | some ec =>
          match parseStringChars fuel cs' with
          | none => none
          | some (body, rem) => some (ec :: body, rem)
    else
      match parseStringChars fuel cs with
      | none => none
      | some (body, rem) => some (c :: body, rem)

def isDigitChar (c : Char) : Bool := decide ('0' ≤ c) && decide (c ≤ '9')

/-- Parse a nonempty run of decimal digits. -/
def parseNatNum (s : List Char) : Option (Nat × List Char) :=
  let ds := s.takeWhile isDigitChar
  if ds.isEmpty then none
  else some (ds.foldl (fun a c => 10 * a + (c.toNat - 48)) 0, s.drop ds.length)

/-- Parsing modes of the single-pass JSON reader: a value, the items
of a non-empty array (after `[` or `,`), or the fields of a non-empty
object (after the opening brace or `,`).  Array item and object field
results are wrapped as `Json.arr`/`Json.obj`. -/
inductive JMode where
  | value
  | arrItems
  | objFields

/-- Fuel-indexed recursive-descent JSON reader. -/
def parseStep : Nat → JMode → List Char → Option (Json × List Char)
  | 0, _, _ => none
  | fuel + 1, JMode.value, s =>
    match skipJsonWs s with
    | [] => none
    | c :: cs =>
      if c = jsonQuote then
        match parseStringChars (cs.length + 1) cs with
        | none => none
        | some (body, rem) => some (Json.str (String.mk body), rem)
      else if c = jsonLBrace then
        match skipJsonWs cs with
        | [] => none
        | c' :: cs' =>
          if c' = jsonRBrace then some (Json.obj [], cs')
          else
            match parseStep fuel JMode.objFields (c' :: cs') with
            | some (Json.obj fs, rem) => some (Json.obj fs, rem)
            | _ => none
      else if c = '[' then
        match skipJsonWs cs with
        | [] => none
        | c' :: cs' =>
          if c' = ']' then some (Json.arr [], cs')
          else
            match parseStep fuel JMode.arrItems (c' :: cs') with
            | some (Json.arr vs, rem) => some (Json.arr vs, rem)
            | _ => none
      else if c = '-' then
        match parseNatNum cs with
        | none => none
        | some (n, rem) => some (Json.num (-(n : Int)), rem)
      else if isDigitChar c then
        match parseNatNum (c :: cs) with
        | none => none
        | some (n, rem) => some (Json.num (n : Int), rem)
      else if c = 't' then
        if "rue".data.isPrefixOf cs then some (Json.bool true, cs.drop 3)
        else none
      else if c = 'f' then
        if "alse".data.isPrefixOf cs then some (Json.bool false, cs.drop 4)
        else none
      else if c = 'n' then
        if "ull".data.isPrefixOf cs then some (Json.null, cs.drop 3)
        else none
      else none
  | fuel + 1, JMode.arrItems, s =>
    match parseStep fuel JMode.value s with
    | none => none
    | some (v, rem) =>
      match skipJsonWs rem with
      | [] => none
      | c :: cs =>
        if c = ',' then
          match parseStep fuel JMode.arrItems cs with
          | some (Json.arr vs, rem') => some (Json.arr (v :: vs), rem')
          | _ => none
        else if c = ']' then some (Json.arr [v], cs)
        else none
  | fuel + 1, JMode.objFields, s =>
    match skipJsonWs s with
    | [] => none
    | c :: cs =>
      if c = jsonQuote then
        match parseStringChars (cs.length + 1) cs with
        | none => none
        | some (key, rem) =>
          match skipJsonWs rem with
          | [] => none
          | c' :: cs' =>
            if c' = ':' then
              match parseStep fuel JMode.value cs' with
              | none => none
              | some (v, rem') =>
                match skipJsonWs rem' with
                | [] => none
                | c'' :: cs'' =>
                  if c'' = ',' then
                    match parseStep fuel JMode.objFields cs'' with
                    | some (Json.obj fs, rem'') =>
                      some (Json.obj ((String.mk key, v) :: fs), rem'')
                    | _ => none
                  else if c'' = jsonRBrace then
                    some (Json.obj [(String.mk key, v)], cs'')
                  else none
            else none
      else none

/-- Model of `jq . "$TEMP_RESPONSE"` validation plus parsing: the file
must hold one complete JSON document (the payloads in question always
are single documents), possibly surrounded by whitespace. -/
def parseJsonDoc (s : String) : Option Json :=
  match parseStep (2 * s.data.length + 4) JMode.value s.data with
  | some (v, rem) => if (skipJsonWs rem).isEmpty then some v else none
  | none => none

/-- Model of `jq -e 'has("k")'` succeeding: the document is an object
with field `k`.  (On a non-object document `jq` exits with an error
status, which the script treats the same as `false`.) -/
def jsonHasField (j : Json) (k : String) : Bool :=
  match j with
  | Json.obj fs => fs.any (fun f => f.1 == k)
  | _ => false

def jsonGetField (j : Json) (k : String) : Option Json :=
  match j with
  | Json.obj fs => (fs.find? (fun f => f.1 == k)).map Prod.snd
  | _ => none

/-- Model of `jq -r '.field'` for the string-valued fields of a
validated response. -/
def jsonAsString : Option Json → String
  | some (Json.str s) => s
  | _ => ""

def jsonSection (j : Json) : String × String :=
  (jsonAsString (jsonGetField j "title"),
    jsonAsString (jsonGetField j "content"))

def jsonSections (j : Json) : List (String × String) :=
  match jsonGetField j "sections" with
  | some (Json.arr xs) => xs.map jsonSection
  | _ => []

/-- The record the script renders and caches from a validated response
document. -/
def toRecord (j : Json) : ExplanationRecord :=
  { command := jsonAsString (jsonGetField j "command")
    summary := jsonAsString (jsonGetField j "summary")
    risk_level := jsonAsString (jsonGetField j "risk_level")
    sections := jsonSections j }

/-- The response file content of one attempt (auditdog.sh lines
257-272): both curl invocations redirect `> "$TEMP_RESPONSE" 2>&1`, so
in debug mode the verbose trace `curl -v` writes to stderr lands in
the response file ahead of the body, while in normal mode `-s` keeps
stderr silent on success. -/
def responseFile (debug : Bool) (trace body : String) : String :=
  if debug then trace ++ body else body

/-- Validation of one attempt (auditdog.sh lines 277-323) from the
transport result (`none` for a non-zero curl status, `some body` for a
received response body, with `trace` the verbose trace available when
enabled): transport failure, an empty response file, invalid JSON, an
error `detail` field, and a missing required field each fail the
attempt; otherwise the attempt yields the validated record. -/
def attemptOutcome (debug : Bool) (trace : String)
    (transport : Option String) : Option ExplanationRecord :=
  match transport with
  | none => none
  | some body =>
    let file := responseFile debug trace body
    if file.data.length = 0 then none
    else
      match parseJsonDoc file with
      | none => none
      | some j =>
        if jsonHasField j "detail" then none
        else if jsonHasField j "command" && jsonHasField j "summary" &&
            jsonHasField j "sections" && jsonHasField j "risk_level" then
          some (toRecord j)
        else none

/-- A well-formed response body for `ls -la`. -/
def goodBody : String :=
  "\x7b\"command\":\"ls -la\",\"summary\":\"Lists files\",\"risk_level\":\"low\",\"sections\":[\x7b\"title\":\"Effect\",\"content\":\"Lists directory contents\"\x7d]\x7d"

/-- A representative verbose trace `curl -v` writes to stderr. -/
def curlTrace : String :=
  "* Connected to localhost port 8000\n> POST /api/v1/commands/explain HTTP/1.1\n< HTTP/1.1 200 OK\n"

set_option maxRecDepth 100000 in
/-- Claim C8 (code bug in the script): enabling the verbosity flag
does alter control flow.  Against the same remote behavior — transport
succeeds on the first attempt with a valid body — the normal run
validates the body, caches the record and exits 0, but the debug run
has the curl verbose trace redirected into the response file by
`curl -v ... > "$TEMP_RESPONSE" 2>&1`, fails the JSON validity check on
every one of the five attempts, caches nothing, and exits 1. -/
theorem C8_debug_alters_control_flow :
    attemptOutcome false curlTrace (some goodBody) ≠ none ∧
    attemptOutcome true curlTrace (some goodBody) = none ∧
    (session [] "ls -la"
      (fun _ => attemptOutcome false curlTrace (some goodBody)) "" 0).exitCode
        = 0 ∧
    (session [] "ls -la"
      (fun _ => attemptOutcome false curlTrace (some goodBody)) ""
        0).cacheAfter ≠ [] ∧
    (session [] "ls -la"
      (fun _ => attemptOutcome true curlTrace (some goodBody)) "" 0).exitCode
        = 1 ∧
    (session [] "ls -la"
      (fun _ => attemptOutcome true curlTrace (some goodBody)) ""
        0).cacheAfter = [] := by decide
